import Mathlib

/-!
Shallow embedding of the tinyrbac core (Go): the policy data model,
the validator, the index/matrix builder and the checker, together with
theorems settling the specification claims.

Sources embedded: tinyrbac.go (buildRoleAndResourceMapping, buildFromConfig,
check), constants.go, utils.go (getHTTPActionOffset, current variant with
default offset 0), and the validate method of the config type.

Machine integers: the Go resourceSet is uint64; it is modelled as Nat with
the invariant value < 2^64, which every build step preserves (bit positions
written are < 64 and the all-ones constant is 2^64 - 1); theorems carry the
invariant where needed. Go array reads/writes that would panic out of range
are modelled by Option results of the build; the checker indices are proved
in range (claim C5).
-/

/-- Constants from constants.go. -/
def maxRoles : Nat := 20

def maxActions : Nat := 5

def maxResources : Nat := 64

def allResources : String := "*"

/-- allResourceAccess = math.MaxUint64 on the uint64 resourceSet. -/
def allResourceAccess : Nat := 2 ^ 64 - 1

/-- A resource grant inside a role: resource name plus action strings. -/
structure resource where
  name : String
  actions : List String
deriving DecidableEq, Repr

/-- A role of the policy: name, description, grants. -/
structure role where
  name : String
  description : String := ""
  resources : List resource
deriving DecidableEq, Repr

/-- The decoded policy (the config type of the Go source). -/
structure config where
  description : String := ""
  roles : List role
  resources : List String
deriving DecidableEq, Repr

/-- getHTTPActionOffset from utils.go: the switch over the five verbs,
with default offset 0 (the current variant of the source). -/
def getHTTPActionOffset (action : String) : Nat :=
  if action = "GET" then 0
  else if action = "POST" then 1
  else if action = "PUT" then 2
  else if action = "PATCH" then 3
  else if action = "DELETE" then 4
  else 0

/-- The closed action vocabulary of the spec. -/
def recognizedActions : List String := ["GET", "POST", "PUT", "PATCH", "DELETE"]

/-- Validation errors, one constructor per error value the Go validate
method can return (ErrNoResources, ErrNoRoles and the fmt.Errorf cases). -/
inductive validationError where
  | noResources
  | resourcesExceeded (max actual : Nat)
  | noRoles
  | emptyRole (index : Nat)
  | emptyResources (roleName : String)
  | undefinedResource (resName roleName : String)
  | rolesExceeded (max actual : Nat)
deriving DecidableEq, Repr

/-- The distinct non-empty resource names, as the Go validate method
collects them into its map (skipping empty strings). -/
def dedupNonEmpty (rs : List String) : List String :=
  (rs.filter (fun r => r ≠ "")).dedup

/-- First grant of a role whose name is neither the wildcard nor a member
of the resource set: the inner loop of the validate method. -/
def firstUndefined (resSet : List String) : List resource → Option String
  | [] => none
  | re :: rest =>
      if re.name ≠ allResources ∧ re.name ∉ resSet then some re.name
      else firstUndefined resSet rest

/-- Whether a role passes the per-role validation checks (name non-empty,
at least one grant, no undefined resource); index-free form. -/
def roleOk (resSet : List String) (r : role) : Bool :=
  r.name ≠ "" && !r.resources.isEmpty && (firstUndefined resSet r.resources).isNone

/-- The defect the validate method reports for the role at index i,
if any: empty name, then empty grants, then the first undefined resource. -/
def roleDefect (resSet : List String) (i : Nat) (r : role) : Option validationError :=
  if r.name = "" then some (.emptyRole i)
  else if r.resources.isEmpty then some (.emptyResources r.name)
  else match firstUndefined resSet r.resources with
    | some n => some (.undefinedResource n r.name)
    | none => none

/-- The role loop of the validate method: first defect in declaration
order, indices counted from i. -/
def checkRoles (resSet : List String) (i : Nat) : List role → Option validationError
  | [] => none
  | r :: rest =>
      match roleDefect resSet i r with
      | some e => some e
      | none => checkRoles resSet (i + 1) rest

/-- validate from the config source file: fail-fast checks in source
order; none means the config is valid. -/
def validate (c : config) : Option validationError :=
  if c.resources = [] then some .noResources
  else
    let resSet := dedupNonEmpty c.resources
    if resSet.length > maxResources then
      some (.resourcesExceeded maxResources c.resources.length)
    else if c.roles = [] then some .noRoles
    else
      match checkRoles resSet 0 c.roles with
      | some e => some e
      | none =>
          if c.roles.length > maxRoles then
            some (.rolesExceeded maxRoles c.roles.length)
          else none

/-- slices.Index of the Go source: index of the first occurrence, none
standing for the -1 not-found result. -/
def sIndex (l : List String) (s : String) : Option Nat :=
  match l with
  | [] => none
  | x :: xs => if x = s then some 0 else (sIndex xs s).map (· + 1)

/-- Pad a list with empty strings up to length n: the untouched tail of a
fixed-size Go string array. -/
def padTo (n : Nat) (l : List String) : List String :=
  l ++ List.replicate (n - l.length) ""

/-- Lexicographic order on char lists by codepoint, which agrees with the
byte order Go slices.Sort uses on strings (UTF-8 preserves codepoint
order). Defined here because the order must evaluate inside the kernel. -/
def charListLt : List Char → List Char → Bool
  | [], [] => false
  | [], _ :: _ => true
  | _ :: _, [] => false
  | c :: cs, d :: ds =>
      if c.toNat < d.toNat then true
      else if d.toNat < c.toNat then false
      else charListLt cs ds

/-- Strict lexicographic order on strings. -/
def strLt (a b : String) : Bool := charListLt a.data b.data

/-- Reflexive lexicographic order on strings. -/
def strLe (a b : String) : Bool := !strLt b a

/-- slices.Sort on strings: sort into ascending lexicographic byte order. -/
def sortedStrings (l : List String) : List String :=
  l.insertionSort (fun a b => strLe a b = true)

/-- The built model: tinyrbac.go Rbac struct. accessMap is the flat
[maxActions*maxRoles] array of uint64 bitsets, modelled as a function;
the two index maps are the fixed-size string arrays as length-20 and
length-64 lists. -/
structure Rbac where
  accessMap : Nat → Nat
  roleIdxMap : List String
  resourceIdxMap : List String

/-- buildRoleAndResourceMapping from tinyrbac.go: all resource names of
the config (the Go map does not skip empty strings) deduplicated and
sorted, and the role names sorted; none models the Go panic that writing
past the fixed arrays would raise when the distinct-resource count
exceeds 64 or the role count exceeds 20. -/
def buildRoleAndResourceMapping (c : config) : Option (List String × List String) :=
  let distinctResources := c.resources.dedup
  if maxResources < distinctResources.length then none
  else if maxRoles < c.roles.length then none
  else some (padTo maxRoles (sortedStrings (c.roles.map role.name)),
             padTo maxResources (sortedStrings distinctResources))

/-- Write one cell of the access map. -/
def setCell (m : Nat → Nat) (i : Nat) (v : Nat) : Nat → Nat :=
  fun j => if j = i then v else m j

/-- The wildcard branch of buildFromConfig: each action cell of the row
is assigned the all-ones bitset. -/
def applyWildActions (base : Nat) : List String → (Nat → Nat) → (Nat → Nat)
  | [], m => m
  | a :: rest, m =>
      applyWildActions base rest
        (setCell m (base + getHTTPActionOffset a) allResourceAccess)

/-- The concrete branch of buildFromConfig: the resource bit is ORed into
each action cell of the row. -/
def applyConcreteActions (base ridx : Nat) : List String → (Nat → Nat) → (Nat → Nat)
  | [], m => m
  | a :: rest, m =>
      applyConcreteActions base ridx rest
        (setCell m (base + getHTTPActionOffset a)
          (m (base + getHTTPActionOffset a) ||| 1 <<< ridx))

/-- One grant of buildFromConfig: drop empty action strings, skip the
grant when nothing remains, otherwise branch on the wildcard. none models
the Go panic (negative shift) when a concrete name is absent from the
resource index, which validation rules out. -/
def applyGrant (resourceMap : List String) (base : Nat) (g : resource)
    (m : Nat → Nat) : Option (Nat → Nat) :=
  let actions := g.actions.filter (fun a => a ≠ "")
  if actions.isEmpty then some m
  else if g.name = allResources then some (applyWildActions base actions m)
  else
    match sIndex resourceMap g.name with
    | none => none
    | some ridx => some (applyConcreteActions base ridx actions m)

/-- The grants of one role, in declaration order. -/
def applyGrants (resourceMap : List String) (base : Nat) :
    List resource → (Nat → Nat) → Option (Nat → Nat)
  | [], m => some m
  | g :: gs, m =>
      match applyGrant resourceMap base g m with
      | none => none
      | some m2 => applyGrants resourceMap base gs m2

/-- The role loop of buildFromConfig: each role writes into the row block
selected by the index of its name. The none branch on the role lookup is
unreachable when the role map was produced by buildRoleAndResourceMapping
(it holds every role name); in Go the lookup would yield -1 and the first
matrix write would panic. -/
def applyRoles (roleMap resourceMap : List String) :
    List role → (Nat → Nat) → Option (Nat → Nat)
  | [], m => some m
  | r :: rs, m =>
      match sIndex roleMap r.name with
      | none => none
      | some roleIdx =>
          match applyGrants resourceMap (roleIdx * maxActions) r.resources m with
          | none => none
          | some m2 => applyRoles roleMap resourceMap rs m2

/-- buildFromConfig from tinyrbac.go: mappings, then the access matrix
starting from the zero array. -/
def buildFromConfig (c : config) : Option Rbac :=
  match buildRoleAndResourceMapping c with
  | none => none
  | some (roleMap, resourceMap) =>
      match applyRoles roleMap resourceMap c.roles (fun _ => 0) with
      | none => none
      | some am => some ⟨am, roleMap, resourceMap⟩

/-- Query errors of the check method. -/
inductive queryError where
  | unknownRole (name : String)
  | unknownResource (name : String)
deriving DecidableEq, Repr

/-- check from tinyrbac.go: linear scan for the role, then for the
resource, then the bit test on the selected cell. -/
def check (r : Rbac) (roleName resourceName action : String) :
    Bool × Option queryError :=
  match sIndex r.roleIdxMap roleName with
  | none => (false, some (.unknownRole roleName))
  | some roleIdx =>
      match sIndex r.resourceIdxMap resourceName with
      | none => (false, some (.unknownResource resourceName))
      | some resourceIdx =>
          ((r.accessMap (roleIdx * maxActions + getHTTPActionOffset action)).testBit
            resourceIdx, none)

/-- Whether every action string in every grant of the policy is either
empty or one of the five recognized verbs. -/
def actionsOk (c : config) : Bool :=
  c.roles.all fun r => r.resources.all fun g => g.actions.all fun a =>
    a = "" || a ∈ recognizedActions

/-- A (role, resource, action) combination is covered by some grant of
the policy: some role entry of that name has a grant that is the wildcard
or names the resource, with the action among its action strings. -/
def coveredB (c : config) (roleName resourceName action : String) : Bool :=
  c.roles.any fun r => r.name = roleName && r.resources.any fun g =>
    (g.name = allResources || g.name = resourceName) && action ∈ g.actions

/-- One cell-and-bit of the access matrix is written while processing
grant g of a role whose row starts at base: some non-empty action of the
grant selects the cell, and the grant is the wildcard (every bit below 64)
or its name resolves to exactly that bit. -/
def coveredGrant (resourceMap : List String) (base : Nat) (g : resource)
    (i j : Nat) : Prop :=
  ∃ a ∈ g.actions, a ≠ "" ∧ i = base + getHTTPActionOffset a ∧
    ((g.name = allResources ∧ j < 64) ∨
     (g.name ≠ allResources ∧ sIndex resourceMap g.name = some j))

/-- Coverage by some grant in a list of grants. -/
def coveredGrants (resourceMap : List String) (base : Nat) (gs : List resource)
    (i j : Nat) : Prop :=
  ∃ g ∈ gs, coveredGrant resourceMap base g i j

/-- Coverage by some grant of some role of the policy, the row selected by
the index of the role name. -/
def coveredRoles (roleMap resourceMap : List String) (roles : List role)
    (i j : Nat) : Prop :=
  ∃ r ∈ roles, ∃ ri, sIndex roleMap r.name = some ri ∧
    coveredGrants resourceMap (ri * maxActions) r.resources i j

/-- Modelled Go slices.DeleteFunc aliasing effect on the action slice of a
grant: buildFromConfig calls slices.DeleteFunc on the callers slice, which
compacts the kept elements to the front of the shared backing array and
zeroes the tail, so the callers slice header afterwards reads the
non-empty actions followed by empty strings. -/
def actionsAfterBuild (acts : List String) : List String :=
  acts.filter (fun a => a ≠ "") ++
    List.replicate (acts.length - (acts.filter (fun a => a ≠ "")).length) ""

/-- Concrete policy: one role with one concrete grant for GET. Used for
claims about the behaviour of unrecognized action names. -/
def cfgGetOnly : config :=
  { roles := [{ name := "r", resources := [⟨"a", ["GET"]⟩] }],
    resources := ["a"] }

/-- Concrete policy: one role granted only the unrecognized action FOO on
resource a; validation accepts it. -/
def cfgFooAction : config :=
  { roles := [{ name := "r", resources := [⟨"a", ["FOO"]⟩] }],
    resources := ["a"] }

/-- Concrete policy whose resources list contains only an empty string,
with a wildcard-only role. -/
def cfgEmptyResourceOnly : config :=
  { roles := [{ name := "r", resources := [⟨"*", ["GET"]⟩] }],
    resources := [""] }

/-- Concrete policy whose resources list mixes an empty string with
non-empty names. -/
def cfgEmptyAmongResources : config :=
  { roles := [{ name := "r", resources := [⟨"a", ["GET"]⟩] }],
    resources := ["b", "a", ""] }

/-- The wildcard-holding role of cfgWildcard. -/
def adminRole : role := { name := "Admin", resources := [⟨"*", ["GET", "DELETE"]⟩] }

/-- Concrete policy with a wildcard role and a concrete role. -/
def cfgWildcard : config :=
  { roles := [adminRole, { name := "Auditor", resources := [⟨"b", ["GET"]⟩] }],
    resources := ["a", "b"] }

/-- Concrete policy with no resources at all. -/
def cfgNoResources : config := { roles := [], resources := [] }

/-- Concrete policy whose second role has an empty name while the first
role is well-formed. -/
def cfgBadSecondRole : config :=
  { roles := [{ name := "r1", resources := [⟨"a", ["GET"]⟩] },
              { name := "", resources := [⟨"a", ["GET"]⟩] }],
    resources := ["a"] }

/-- Concrete policy with 21 well-formed roles. -/
def cfgManyRoles : config :=
  { roles := (List.range 21).map fun i =>
      { name := "r" ++ toString i, resources := [⟨"a", ["GET"]⟩] },
    resources := ["a"] }

/-- A concrete model value with empty maps and a zero matrix. -/
def rbacEmpty : Rbac := ⟨fun _ => 0, [], []⟩

/-! Order lemmas for the string comparison used by the sort. -/

theorem charListLt_cons_true {x y : Char} {xs ys : List Char} :
    charListLt (x :: xs) (y :: ys) = true ↔
      x.toNat < y.toNat ∨ (x.toNat = y.toNat ∧ charListLt xs ys = true) := by
  simp only [charListLt]
  split_ifs with h1 h2
  · simp [h1]
  · constructor
    · intro h; exact absurd h (by simp)
    · rintro (h | ⟨h, _⟩) <;> omega
  · constructor
    · intro h; exact Or.inr ⟨by omega, h⟩
    · rintro (h | ⟨_, h⟩)
      · omega
      · exact h

theorem charListLt_cons_false {x y : Char} {xs ys : List Char} :
    charListLt (x :: xs) (y :: ys) = false ↔
      y.toNat < x.toNat ∨ (x.toNat = y.toNat ∧ charListLt xs ys = false) := by
  simp only [charListLt]
  split_ifs with h1 h2
  · constructor
    · intro h; exact absurd h (by simp)
    · rintro (h | ⟨h, _⟩) <;> omega
  · simp [h2]
  · constructor
    · intro h; exact Or.inr ⟨by omega, h⟩
    · rintro (h | ⟨_, h⟩)
      · omega
      · exact h

theorem charListLt_irrefl : ∀ l : List Char, charListLt l l = false
  | [] => rfl
  | c :: cs => charListLt_cons_false.mpr (Or.inr ⟨rfl, charListLt_irrefl cs⟩)

theorem charListLt_trans : ∀ {a b c : List Char}, charListLt a b = true →
    charListLt b c = true → charListLt a c = true
  | [], _, _ :: _, _, _ => rfl
  | [], [], [], h1, _ => by simp [charListLt] at h1
  | [], _ :: _, [], _, h2 => by simp [charListLt] at h2
  | _ :: _, [], _, h1, _ => by simp [charListLt] at h1
  | _ :: _, _ :: _, [], _, h2 => by simp [charListLt] at h2
  | x :: xs, y :: ys, z :: zs, h1, h2 => by
      rw [charListLt_cons_true] at h1 h2 ⊢
      rcases h1 with h1 | ⟨e1, r1⟩ <;> rcases h2 with h2 | ⟨e2, r2⟩
      · exact Or.inl (by omega)
      · exact Or.inl (by omega)
      · exact Or.inl (by omega)
      · exact Or.inr ⟨by omega, charListLt_trans r1 r2⟩

theorem charListLt_asymm_eq : ∀ {a b : List Char}, charListLt a b = false →
    charListLt b a = false → a = b
  | [], [], _, _ => rfl
  | [], _ :: _, h1, _ => by simp [charListLt] at h1
  | _ :: _, [], _, h2 => by simp [charListLt] at h2
  | x :: xs, y :: ys, h1, h2 => by
      rw [charListLt_cons_false] at h1 h2
      rcases h1 with h1 | ⟨e1, r1⟩ <;> rcases h2 with h2 | ⟨e2, r2⟩
      · omega
      · omega
      · omega
      · have hc : x = y := Char.eq_of_val_eq (UInt32.ext e1)
        rw [hc, charListLt_asymm_eq r1 r2]

theorem strLt_irrefl (a : String) : strLt a a = false := charListLt_irrefl a.data

theorem strLt_trans {a b c : String} (h1 : strLt a b = true)
    (h2 : strLt b c = true) : strLt a c = true := charListLt_trans h1 h2

theorem strLt_asymm_eq {a b : String} (h1 : strLt a b = false)
    (h2 : strLt b a = false) : a = b := by
  have h : a.data = b.data := charListLt_asymm_eq h1 h2
  cases a
  cases b
  exact congrArg String.mk h

theorem strLe_total (a b : String) : strLe a b = true ∨ strLe b a = true := by
  by_cases h1 : strLt b a = true
  · right
    by_cases h2 : strLt a b = true
    · have h3 := strLt_trans h1 h2
      rw [strLt_irrefl] at h3
      exact absurd h3 (by simp)
    · simp only [Bool.not_eq_true] at h2
      simp [strLe, h2]
  · simp only [Bool.not_eq_true] at h1
    left
    simp [strLe, h1]

theorem strLe_trans {a b c : String} (h1 : strLe a b = true)
    (h2 : strLe b c = true) : strLe a c = true := by
  simp only [strLe, Bool.not_eq_true'] at h1 h2 ⊢
  by_cases hca : strLt c a = true
  · by_cases hcb : strLt c b = true
    · rw [hcb] at h2; exact absurd h2 (by simp)
    · simp only [Bool.not_eq_true] at hcb
      by_cases hbc : strLt b c = true
      · rw [strLt_trans hbc hca] at h1
        exact absurd h1 (by simp)
      · simp only [Bool.not_eq_true] at hbc
        rw [strLt_asymm_eq hbc hcb] at h1
        rw [hca] at h1
        exact absurd h1 (by simp)
  · simpa using hca

theorem strLt_of_strLe_of_ne {a b : String} (h : strLe a b = true)
    (hne : a ≠ b) : strLt a b = true := by
  simp only [strLe, Bool.not_eq_true'] at h
  by_cases hab : strLt a b = true
  · exact hab
  · simp only [Bool.not_eq_true] at hab
    exact absurd (strLt_asymm_eq hab h) hne

theorem strLe_of_not_strLt {a b : String} (h : strLt b a = false) :
    strLe a b = true := by simp [strLe, h]

/-! Lemmas about the sort and the linear index scan. -/

theorem sortedStrings_perm (l : List String) : (sortedStrings l).Perm l :=
  List.perm_insertionSort _ l

theorem mem_sortedStrings {s : String} {l : List String} :
    s ∈ sortedStrings l ↔ s ∈ l := (sortedStrings_perm l).mem_iff

theorem sortedStrings_sorted (l : List String) :
    (sortedStrings l).Sorted (fun a b => strLe a b = true) := by
  haveI : IsTotal String (fun a b => strLe a b = true) := ⟨strLe_total⟩
  haveI : IsTrans String (fun a b => strLe a b = true) :=
    ⟨fun _ _ _ => strLe_trans⟩
  exact List.sorted_insertionSort _ l

theorem sortedStrings_length (l : List String) :
    (sortedStrings l).length = l.length := (sortedStrings_perm l).length_eq

theorem sIndex_lt_length {l : List String} {s : String} {i : Nat}
    (h : sIndex l s = some i) : i < l.length := by
  induction l generalizing i with
  | nil => simp [sIndex] at h
  | cons x xs ih =>
      simp only [sIndex] at h
      split_ifs at h with hx
      · cases h; simp
      · rcases Option.map_eq_some'.mp h with ⟨j, hj, rfl⟩
        simpa using Nat.succ_lt_succ (ih hj)

theorem sIndex_getElem {l : List String} {s : String} {i : Nat}
    (h : sIndex l s = some i) : l[i]? = some s := by
  induction l generalizing i with
  | nil => simp [sIndex] at h
  | cons x xs ih =>
      simp only [sIndex] at h
      split_ifs at h with hx
      · cases h; simp [hx]
      · rcases Option.map_eq_some'.mp h with ⟨j, hj, rfl⟩
        simpa using ih hj

theorem sIndex_inj {l : List String} {s t : String} {i : Nat}
    (hs : sIndex l s = some i) (ht : sIndex l t = some i) : s = t := by
  have h1 := sIndex_getElem hs
  have h2 := sIndex_getElem ht
  rw [h1] at h2
  exact Option.some.inj h2

theorem sIndex_isSome_of_mem {l : List String} {s : String} (h : s ∈ l) :
    ∃ i, sIndex l s = some i := by
  induction l with
  | nil => simp at h
  | cons x xs ih =>
      by_cases hx : x = s
      · exact ⟨0, by simp [sIndex, hx]⟩
      · have hmem : s ∈ xs :=
          (List.mem_cons.mp h).resolve_left (fun he => hx he.symm)
        rcases ih hmem with ⟨i, hi⟩
        exact ⟨i + 1, by simp [sIndex, hx, hi]⟩

theorem sIndex_eq_none_of_not_mem {l : List String} {s : String} (h : s ∉ l) :
    sIndex l s = none := by
  induction l with
  | nil => rfl
  | cons x xs ih =>
      simp only [List.mem_cons, not_or] at h
      simp [sIndex, Ne.symm h.1, ih h.2]

theorem sIndex_append_of_mem {l1 l2 : List String} {s : String} (h : s ∈ l1) :
    sIndex (l1 ++ l2) s = sIndex l1 s := by
  induction l1 with
  | nil => simp at h
  | cons x xs ih =>
      by_cases hx : x = s
      · simp [sIndex, hx]
      · have hmem : s ∈ xs :=
          (List.mem_cons.mp h).resolve_left (fun he => hx he.symm)
        simp only [List.cons_append, sIndex, hx, if_false, List.append_eq]
        rw [ih hmem]

theorem sIndex_append_of_not_mem {l1 l2 : List String} {s : String} (h : s ∉ l1) :
    sIndex (l1 ++ l2) s = (sIndex l2 s).map (· + l1.length) := by
  induction l1 with
  | nil => simp
  | cons x xs ih =>
      simp only [List.mem_cons, not_or] at h
      simp only [List.cons_append, sIndex, Ne.symm h.1, if_false, List.append_eq,
        ih h.2]
      cases sIndex l2 s with
      | none => simp
      | some j =>
          simp only [Option.map_some', List.length_cons]
          congr 1

theorem sIndex_replicate_empty {n : Nat} (h : 0 < n) :
    sIndex (List.replicate n "") "" = some 0 := by
  cases n with
  | zero => omega
  | succ k => simp [List.replicate, sIndex]

theorem sIndex_sorted_rank {l : List String} {s : String}
    (hs : l.Sorted (fun a b => strLe a b = true)) (hm : s ∈ l) :
    sIndex l s = some (l.countP (fun t => strLt t s)) := by
  induction l with
  | nil => simp at hm
  | cons x xs ih =>
      rcases List.sorted_cons.mp hs with ⟨hx, hxs⟩
      by_cases hxeq : x = s
      · subst hxeq
        have hz : ∀ t ∈ xs, (strLt t x) = false := by
          intro t ht
          have := hx t ht
          simp only [strLe, Bool.not_eq_true'] at this
          exact this
        have : xs.countP (fun t => strLt t x) = 0 := by
          rw [List.countP_eq_zero]
          intro t ht
          simp [hz t ht]
        simp [sIndex, List.countP_cons, this, strLt_irrefl]
      · have hmem : s ∈ xs :=
          (List.mem_cons.mp hm).resolve_left (fun he => hxeq he.symm)
        have hlt : strLt x s = true :=
          strLt_of_strLe_of_ne (hx s hmem) hxeq
        simp [sIndex, hxeq, ih hxs hmem, List.countP_cons, hlt]

/-! Bitset lemmas. -/

theorem allResourceAccess_lt : allResourceAccess < 2 ^ 64 := by
  simp [allResourceAccess]

theorem testBit_allResourceAccess {j : Nat} :
    allResourceAccess.testBit j = true ↔ j < 64 := by
  rw [allResourceAccess, Nat.testBit_two_pow_sub_one]
  simp

theorem testBit_high_false {x j : Nat} (hx : x < 2 ^ 64) (hj : 64 ≤ j) :
    x.testBit j = false :=
  Nat.testBit_eq_false_of_lt
    (lt_of_lt_of_le hx (Nat.pow_le_pow_right (by norm_num) hj))

theorem testBit_two_pow_iff {r j : Nat} : (2 ^ r).testBit j = true ↔ j = r := by
  by_cases h : r = j
  · subst h; simp [Nat.testBit_two_pow_self]
  · simp [Nat.testBit_two_pow_of_ne h, Ne.symm h]

theorem setCell_same (m : Nat → Nat) (i v : Nat) : setCell m i v i = v := by
  simp [setCell]

theorem setCell_other (m : Nat → Nat) (i v j : Nat) (h : j ≠ i) :
    setCell m i v j = m j := by simp [setCell, h]

/-! Characterization of the matrix writes of the build. -/

theorem applyWildActions_spec (base : Nat) (acts : List String) (m : Nat → Nat)
    (hm : ∀ i, m i < 2 ^ 64) :
    (∀ i, applyWildActions base acts m i < 2 ^ 64) ∧
    (∀ i j, (applyWildActions base acts m i).testBit j = true ↔
      (m i).testBit j = true ∨
      ((∃ a ∈ acts, i = base + getHTTPActionOffset a) ∧ j < 64)) := by
  induction acts generalizing m with
  | nil => exact ⟨hm, by simp [applyWildActions]⟩
  | cons a rest ih =>
      have hm2 : ∀ i, setCell m (base + getHTTPActionOffset a) allResourceAccess i
          < 2 ^ 64 := by
        intro i
        by_cases hi : i = base + getHTTPActionOffset a
        · rw [hi, setCell_same]; exact allResourceAccess_lt
        · rw [setCell_other _ _ _ _ hi]; exact hm i
      rcases ih _ hm2 with ⟨hlt, hbit⟩
      refine ⟨hlt, fun i j => ?_⟩
      rw [applyWildActions, hbit i j]
      by_cases hi : i = base + getHTTPActionOffset a
      · subst hi
        rw [setCell_same, testBit_allResourceAccess]
        constructor
        · rintro (hj | ⟨_, hj⟩) <;>
            exact Or.inr ⟨⟨a, List.mem_cons_self a rest, rfl⟩, hj⟩
        · rintro (hmb | ⟨_, hj⟩)
          · refine Or.inl ?_
            by_contra hj
            rw [testBit_high_false (hm _) (by omega)] at hmb
            exact absurd hmb (by simp)
          · exact Or.inl hj
      · rw [setCell_other _ _ _ _ hi]
        constructor
        · rintro (hmb | ⟨⟨b, hb, hib⟩, hj⟩)
          · exact Or.inl hmb
          · exact Or.inr ⟨⟨b, List.mem_cons_of_mem a hb, hib⟩, hj⟩
        · rintro (hmb | ⟨⟨b, hb, hib⟩, hj⟩)
          · exact Or.inl hmb
          · rcases List.mem_cons.mp hb with rfl | hb
            · exact absurd hib hi
            · exact Or.inr ⟨⟨b, hb, hib⟩, hj⟩

theorem applyConcreteActions_spec (base ridx : Nat) (acts : List String)
    (m : Nat → Nat) (hm : ∀ i, m i < 2 ^ 64) (hr : ridx < 64) :
    (∀ i, applyConcreteActions base ridx acts m i < 2 ^ 64) ∧
    (∀ i j, (applyConcreteActions base ridx acts m i).testBit j = true ↔
      (m i).testBit j = true ∨
      ((∃ a ∈ acts, i = base + getHTTPActionOffset a) ∧ j = ridx)) := by
  induction acts generalizing m with
  | nil => exact ⟨hm, by simp [applyConcreteActions]⟩
  | cons a rest ih =>
      have hpow : (1 : Nat) <<< ridx < 2 ^ 64 := by
        rw [Nat.one_shiftLeft]
        exact Nat.pow_lt_pow_right (by norm_num) hr
      have hm2 : ∀ i, setCell m (base + getHTTPActionOffset a)
          (m (base + getHTTPActionOffset a) ||| 1 <<< ridx) i < 2 ^ 64 := by
        intro i
        by_cases hi : i = base + getHTTPActionOffset a
        · rw [hi, setCell_same]; exact Nat.or_lt_two_pow (hm _) hpow
        · rw [setCell_other _ _ _ _ hi]; exact hm i
      rcases ih _ hm2 with ⟨hlt, hbit⟩
      refine ⟨hlt, fun i j => ?_⟩
      rw [applyConcreteActions, hbit i j]
      by_cases hi : i = base + getHTTPActionOffset a
      · subst hi
        rw [setCell_same, Nat.one_shiftLeft, Nat.testBit_lor]
        simp only [Bool.or_eq_true, testBit_two_pow_iff]
        constructor
        · rintro ((hmb | hj) | ⟨_, hj⟩)
          · exact Or.inl hmb
          · exact Or.inr ⟨⟨a, List.mem_cons_self a rest, rfl⟩, hj⟩
          · exact Or.inr ⟨⟨a, List.mem_cons_self a rest, rfl⟩, hj⟩
        · rintro (hmb | ⟨_, hj⟩)
          · exact Or.inl (Or.inl hmb)
          · exact Or.inl (Or.inr hj)
      · rw [setCell_other _ _ _ _ hi]
        constructor
        · rintro (hmb | ⟨⟨b, hb, hib⟩, hj⟩)
          · exact Or.inl hmb
          · exact Or.inr ⟨⟨b, List.mem_cons_of_mem a hb, hib⟩, hj⟩
        · rintro (hmb | ⟨⟨b, hb, hib⟩, hj⟩)
          · exact Or.inl hmb
          · rcases List.mem_cons.mp hb with rfl | hb
            · exact absurd hib hi
            · exact Or.inr ⟨⟨b, hb, hib⟩, hj⟩

theorem coveredGrants_cons {rm : List String} {base : Nat} {g : resource}
    {gs : List resource} {i j : Nat} :
    coveredGrants rm base (g :: gs) i j ↔
      coveredGrant rm base g i j ∨ coveredGrants rm base gs i j := by
  constructor
  · rintro ⟨g2, hg2, hc⟩
    rcases List.mem_cons.mp hg2 with rfl | hg2
    · exact Or.inl hc
    · exact Or.inr ⟨g2, hg2, hc⟩
  · rintro (hc | ⟨g2, hg2, hc⟩)
    · exact ⟨g, List.mem_cons_self g gs, hc⟩
    · exact ⟨g2, List.mem_cons_of_mem g hg2, hc⟩

theorem coveredRoles_cons {rl rm : List String} {r : role} {rs : List role}
    {i j : Nat} :
    coveredRoles rl rm (r :: rs) i j ↔
      (∃ ri, sIndex rl r.name = some ri ∧
        coveredGrants rm (ri * maxActions) r.resources i j) ∨
      coveredRoles rl rm rs i j := by
  constructor
  · rintro ⟨r2, hr2, hc⟩
    rcases List.mem_cons.mp hr2 with rfl | hr2
    · exact Or.inl hc
    · exact Or.inr ⟨r2, hr2, hc⟩
  · rintro (hc | ⟨r2, hr2, hc⟩)
    · exact ⟨r, List.mem_cons_self r rs, hc⟩
    · exact ⟨r2, List.mem_cons_of_mem r hr2, hc⟩

theorem applyGrant_spec {rm : List String} {base : Nat} {g : resource}
    {m m' : Nat → Nat} (h : applyGrant rm base g m = some m')
    (hm : ∀ i, m i < 2 ^ 64) (hlen : rm.length ≤ 64) :
    (∀ i, m' i < 2 ^ 64) ∧
    ∀ i j, (m' i).testBit j = true ↔
      (m i).testBit j = true ∨ coveredGrant rm base g i j := by
  unfold applyGrant at h
  by_cases hemp : (g.actions.filter (fun a => a ≠ "")).isEmpty
  · rw [if_pos hemp] at h
    cases h
    refine ⟨hm, fun i j => ?_⟩
    have hall : ∀ a ∈ g.actions, ¬(a ≠ "") := by
      intro a ha
      have := List.filter_eq_nil_iff.mp (List.isEmpty_iff.mp hemp) a ha
      simpa using this
    constructor
    · exact Or.inl
    · rintro (hb | ⟨a, ha, hne, _⟩)
      · exact hb
      · exact absurd hne (hall a ha)
  · rw [if_neg hemp] at h
    by_cases hw : g.name = allResources
    · rw [if_pos hw] at h
      cases h
      rcases applyWildActions_spec base (g.actions.filter (fun a => a ≠ "")) m hm
        with ⟨hlt, hbit⟩
      refine ⟨hlt, fun i j => ?_⟩
      rw [hbit i j]
      constructor
      · rintro (hb | ⟨⟨a, ha, hia⟩, hj⟩)
        · exact Or.inl hb
        · rcases List.mem_filter.mp ha with ⟨ha2, hne⟩
          exact Or.inr ⟨a, ha2, by simpa using hne, hia, Or.inl ⟨hw, hj⟩⟩
      · rintro (hb | ⟨a, ha, hne, hia, hdisj⟩)
        · exact Or.inl hb
        · rcases hdisj with ⟨_, hj⟩ | ⟨hne2, _⟩
          · exact Or.inr ⟨⟨a, List.mem_filter.mpr ⟨ha, by simpa using hne⟩, hia⟩, hj⟩
          · exact absurd hw hne2
    · rw [if_neg hw] at h
      cases hidx : sIndex rm g.name with
      | none => rw [hidx] at h; cases h
      | some ridx =>
          rw [hidx] at h
          cases h
          have hr : ridx < 64 := lt_of_lt_of_le (sIndex_lt_length hidx) hlen
          rcases applyConcreteActions_spec base ridx
            (g.actions.filter (fun a => a ≠ "")) m hm hr with ⟨hlt, hbit⟩
          refine ⟨hlt, fun i j => ?_⟩
          rw [hbit i j]
          constructor
          · rintro (hb | ⟨⟨a, ha, hia⟩, hj⟩)
            · exact Or.inl hb
            · rcases List.mem_filter.mp ha with ⟨ha2, hne⟩
              exact Or.inr ⟨a, ha2, by simpa using hne, hia,
                Or.inr ⟨hw, by rw [hidx, hj]⟩⟩
          · rintro (hb | ⟨a, ha, hne, hia, hdisj⟩)
            · exact Or.inl hb
            · rcases hdisj with ⟨hw2, _⟩ | ⟨_, hj⟩
              · exact absurd hw2 hw
              · rw [hidx] at hj
                exact Or.inr ⟨⟨a, List.mem_filter.mpr ⟨ha, by simpa using hne⟩,
                  hia⟩, (Option.some.inj hj).symm⟩

theorem applyGrants_spec {rm : List String} {base : Nat} :
    ∀ {gs : List resource} {m m' : Nat → Nat},
    applyGrants rm base gs m = some m' → (∀ i, m i < 2 ^ 64) →
    rm.length ≤ 64 →
    (∀ i, m' i < 2 ^ 64) ∧
    ∀ i j, (m' i).testBit j = true ↔
      (m i).testBit j = true ∨ coveredGrants rm base gs i j := by
  intro gs
  induction gs with
  | nil =>
      intro m m' h hm _
      cases h
      refine ⟨hm, fun i j => ?_⟩
      simp [coveredGrants]
  | cons g gs ih =>
      intro m m' h hm hlen
      unfold applyGrants at h
      cases hg : applyGrant rm base g m with
      | none => rw [hg] at h; cases h
      | some m2 =>
          rw [hg] at h
          rcases applyGrant_spec hg hm hlen with ⟨hm2, hbit2⟩
          rcases ih h hm2 hlen with ⟨hm3, hbit3⟩
          refine ⟨hm3, fun i j => ?_⟩
          rw [hbit3 i j, hbit2 i j, coveredGrants_cons]
          tauto

theorem applyRoles_spec {rl rm : List String} :
    ∀ {rs : List role} {m m' : Nat → Nat},
    applyRoles rl rm rs m = some m' → (∀ i, m i < 2 ^ 64) →
    rm.length ≤ 64 →
    (∀ i, m' i < 2 ^ 64) ∧
    ∀ i j, (m' i).testBit j = true ↔
      (m i).testBit j = true ∨ coveredRoles rl rm rs i j := by
  intro rs
  induction rs with
  | nil =>
      intro m m' h hm _
      cases h
      refine ⟨hm, fun i j => ?_⟩
      simp [coveredRoles]
  | cons r rs ih =>
      intro m m' h hm hlen
      unfold applyRoles at h
      cases hri : sIndex rl r.name with
      | none => rw [hri] at h; cases h
      | some ri =>
          rw [hri] at h
          dsimp only at h
          cases hg : applyGrants rm (ri * maxActions) r.resources m with
          | none => rw [hg] at h; cases h
          | some m2 =>
              rw [hg] at h
              rcases applyGrants_spec hg hm hlen with ⟨hm2, hbit2⟩
              rcases ih h hm2 hlen with ⟨hm3, hbit3⟩
              refine ⟨hm3, fun i j => ?_⟩
              rw [hbit3 i j, hbit2 i j, coveredRoles_cons]
              constructor
              · rintro ((hb | hcov) | hcov)
                · exact Or.inl hb
                · exact Or.inr (Or.inl ⟨ri, hri, hcov⟩)
                · exact Or.inr (Or.inr hcov)
              · rintro (hb | ⟨ri2, hri2, hcov⟩ | hcov)
                · exact Or.inl (Or.inl hb)
                · rw [hri] at hri2
                  cases Option.some.inj hri2
                  exact Or.inl (Or.inr hcov)
                · exact Or.inr hcov

/-! Build invariants. -/

theorem padTo_length {n : Nat} {l : List String} (h : l.length ≤ n) :
    (padTo n l).length = n := by
  simp only [padTo, List.length_append, List.length_replicate]
  omega

theorem buildFromConfig_inv {c : config} {m : Rbac}
    (h : buildFromConfig c = some m) :
    m.roleIdxMap = padTo maxRoles (sortedStrings (c.roles.map role.name)) ∧
    m.resourceIdxMap = padTo maxResources (sortedStrings c.resources.dedup) ∧
    c.resources.dedup.length ≤ 64 ∧ c.roles.length ≤ 20 ∧
    applyRoles m.roleIdxMap m.resourceIdxMap c.roles (fun _ => 0) =
      some m.accessMap := by
  unfold buildFromConfig at h
  cases hbm : buildRoleAndResourceMapping c with
  | none => rw [hbm] at h; cases h
  | some maps =>
      obtain ⟨rl, sl⟩ := maps
      rw [hbm] at h
      dsimp only at h
      cases har : applyRoles rl sl c.roles (fun _ => 0) with
      | none => rw [har] at h; cases h
      | some am =>
          rw [har] at h
          cases h
          unfold buildRoleAndResourceMapping at hbm
          dsimp only at hbm
          split_ifs at hbm with h1 h2
          cases hbm
          refine ⟨rfl, rfl, by simpa [maxResources] using h1,
            by simpa [maxRoles] using h2, har⟩

theorem roleIdxMap_length {c : config} {m : Rbac}
    (h : buildFromConfig c = some m) : m.roleIdxMap.length = maxRoles := by
  obtain ⟨hrl, _, _, h20, _⟩ := buildFromConfig_inv h
  rw [hrl]
  exact padTo_length (by simpa [sortedStrings_length] using h20)

theorem resourceIdxMap_length {c : config} {m : Rbac}
    (h : buildFromConfig c = some m) : m.resourceIdxMap.length = maxResources := by
  obtain ⟨_, hsl, h64, _, _⟩ := buildFromConfig_inv h
  rw [hsl]
  exact padTo_length (by simpa [sortedStrings_length] using h64)

/-- The master characterization: a bit of the built access matrix is set
exactly when some grant of some role writes it. -/
theorem accessMap_testBit {c : config} {m : Rbac}
    (h : buildFromConfig c = some m) (i j : Nat) :
    (m.accessMap i).testBit j = true ↔
      coveredRoles m.roleIdxMap m.resourceIdxMap c.roles i j := by
  obtain ⟨_, _, _, _, har⟩ := buildFromConfig_inv h
  have hlen : m.resourceIdxMap.length ≤ 64 := by
    simp [resourceIdxMap_length h, maxResources]
  have hz : ∀ i : Nat, (fun _ : Nat => (0 : Nat)) i < 2 ^ 64 := fun _ => by
    norm_num
  rcases applyRoles_spec har hz hlen with ⟨_, hbit⟩
  rw [hbit i j]
  simp [Nat.zero_testBit]

/-! Unfoldings of the checker. -/

theorem check_of_found {m : Rbac} {rn sn a : String} {ri si : Nat}
    (hr : sIndex m.roleIdxMap rn = some ri)
    (hs : sIndex m.resourceIdxMap sn = some si) :
    check m rn sn a =
      ((m.accessMap (ri * maxActions + getHTTPActionOffset a)).testBit si,
        none) := by
  unfold check
  rw [hr, hs]

theorem check_of_role_none {m : Rbac} {rn sn a : String}
    (hr : sIndex m.roleIdxMap rn = none) :
    check m rn sn a = (false, some (.unknownRole rn)) := by
  unfold check
  rw [hr]

theorem check_of_resource_none {m : Rbac} {rn sn a : String} {ri : Nat}
    (hr : sIndex m.roleIdxMap rn = some ri)
    (hs : sIndex m.resourceIdxMap sn = none) :
    check m rn sn a = (false, some (.unknownResource sn)) := by
  unfold check
  rw [hr, hs]

/-! Name lookup on the built maps. -/

theorem roleName_lookup {c : config} {m : Rbac} {rn : String}
    (hb : buildFromConfig c = some m) (hrn : rn ∈ c.roles.map role.name) :
    ∃ ri, sIndex m.roleIdxMap rn = some ri ∧ ri < c.roles.length := by
  obtain ⟨hrl, _, _, _, _⟩ := buildFromConfig_inv hb
  have hmem : rn ∈ sortedStrings (c.roles.map role.name) :=
    mem_sortedStrings.mpr hrn
  rcases sIndex_isSome_of_mem hmem with ⟨ri, hri⟩
  refine ⟨ri, ?_, ?_⟩
  · rw [hrl, padTo, sIndex_append_of_mem hmem, hri]
  · have := sIndex_lt_length hri
    rwa [sortedStrings_length, List.length_map] at this

theorem resource_lookup {c : config} {m : Rbac} {sn : String}
    (hb : buildFromConfig c = some m) (hsn : sn ∈ c.resources) :
    ∃ si, sIndex m.resourceIdxMap sn = some si := by
  obtain ⟨_, hsl, _, _, _⟩ := buildFromConfig_inv hb
  have hmem : sn ∈ sortedStrings c.resources.dedup :=
    mem_sortedStrings.mpr (List.mem_dedup.mpr hsn)
  rcases sIndex_isSome_of_mem hmem with ⟨si, hsi⟩
  exact ⟨si, by rw [hsl, padTo, sIndex_append_of_mem hmem, hsi]⟩

theorem unknownRole_lookup {c : config} {m : Rbac} {rn : String}
    (hb : buildFromConfig c = some m) (hne : rn ≠ "")
    (hrn : rn ∉ c.roles.map role.name) : sIndex m.roleIdxMap rn = none := by
  obtain ⟨hrl, _, _, _, _⟩ := buildFromConfig_inv hb
  have hnm : rn ∉ sortedStrings (c.roles.map role.name) := fun hmem =>
    hrn (mem_sortedStrings.mp hmem)
  rw [hrl, padTo, sIndex_append_of_not_mem hnm,
    sIndex_eq_none_of_not_mem (fun hmem => hne (List.eq_of_mem_replicate hmem))]
  rfl

theorem unknownResource_lookup {c : config} {m : Rbac} {sn : String}
    (hb : buildFromConfig c = some m) (hne : sn ≠ "")
    (hsn : sn ∉ c.resources) : sIndex m.resourceIdxMap sn = none := by
  obtain ⟨_, hsl, _, _, _⟩ := buildFromConfig_inv hb
  have hnm : sn ∉ sortedStrings c.resources.dedup := fun hmem =>
    hsn (List.mem_dedup.mp (mem_sortedStrings.mp hmem))
  rw [hsl, padTo, sIndex_append_of_not_mem hnm,
    sIndex_eq_none_of_not_mem (fun hmem => hne (List.eq_of_mem_replicate hmem))]
  rfl

/-! Facts about validation. -/

theorem roleDefect_none_iff {resSet : List String} {i : Nat} {r : role} :
    roleDefect resSet i r = none ↔ roleOk resSet r = true := by
  unfold roleDefect roleOk
  split_ifs with h1 h2
  · simp [h1]
  · simp [h1, h2]
  · cases hf : firstUndefined resSet r.resources with
    | none => simp [h1, h2, hf]
    | some n => simp [h1, h2, hf]

theorem checkRoles_none_iff {resSet : List String} :
    ∀ {rs : List role} {k : Nat},
    checkRoles resSet k rs = none ↔ ∀ r ∈ rs, roleOk resSet r = true := by
  intro rs
  induction rs with
  | nil => simp [checkRoles]
  | cons r rest ih =>
      intro k
      unfold checkRoles
      cases hd : roleDefect resSet k r with
      | some e =>
          dsimp only
          constructor
          · intro h
            exact absurd h (by simp)
          · intro hall
            have h1 : roleDefect resSet k r = none :=
              roleDefect_none_iff.mpr (hall r (List.mem_cons_self r rest))
            rw [h1] at hd
            cases hd
      | none =>
          dsimp only
          rw [ih]
          constructor
          · intro hall r2 hr2
            rcases List.mem_cons.mp hr2 with rfl | hr2
            · exact roleDefect_none_iff.mp hd
            · exact hall r2 hr2
          · intro hall r2 hr2
            exact hall r2 (List.mem_cons_of_mem r hr2)

theorem checkRoles_some_kinds {resSet : List String} :
    ∀ {rs : List role} {k : Nat} {e : validationError},
    checkRoles resSet k rs = some e →
    (∃ i, e = .emptyRole i) ∨ (∃ s, e = .emptyResources s) ∨
    (∃ s t, e = .undefinedResource s t) := by
  intro rs
  induction rs with
  | nil => intro k e h; cases h
  | cons r rest ih =>
      intro k e h
      unfold checkRoles at h
      cases hd : roleDefect resSet k r with
      | some d =>
          rw [hd] at h
          cases h
          unfold roleDefect at hd
          split_ifs at hd with h1 h2
          · cases hd; exact Or.inl ⟨k, rfl⟩
          · cases hd; exact Or.inr (Or.inl ⟨r.name, rfl⟩)
          · cases hf : firstUndefined resSet r.resources with
            | none => rw [hf] at hd; cases hd
            | some n =>
                rw [hf] at hd
                cases hd
                exact Or.inr (Or.inr ⟨n, r.name, rfl⟩)
      | none =>
          rw [hd] at h
          exact ih h

/-- Decomposition of a successful validation into its five checks. -/
theorem validate_none_parts {c : config} (hv : validate c = none) :
    c.resources ≠ [] ∧ (dedupNonEmpty c.resources).length ≤ maxResources ∧
    c.roles ≠ [] ∧ checkRoles (dedupNonEmpty c.resources) 0 c.roles = none ∧
    c.roles.length ≤ maxRoles := by
  unfold validate at hv
  by_cases h1 : c.resources = []
  · rw [if_pos h1] at hv; cases hv
  · rw [if_neg h1] at hv
    dsimp only at hv
    by_cases h2 : (dedupNonEmpty c.resources).length > maxResources
    · rw [if_pos h2] at hv; cases hv
    · rw [if_neg h2] at hv
      by_cases h3 : c.roles = []
      · rw [if_pos h3] at hv; cases hv
      · rw [if_neg h3] at hv
        cases hcr : checkRoles (dedupNonEmpty c.resources) 0 c.roles with
        | some e => rw [hcr] at hv; cases hv
        | none =>
            rw [hcr] at hv
            dsimp only at hv
            by_cases h4 : c.roles.length > maxRoles
            · rw [if_pos h4] at hv; cases hv
            · exact ⟨h1, by omega, h3, rfl, by omega⟩

theorem validate_none_roleOk {c : config} (hv : validate c = none) :
    ∀ r ∈ c.roles, roleOk (dedupNonEmpty c.resources) r = true :=
  checkRoles_none_iff.mp (validate_none_parts hv).2.2.2.1

theorem validate_none_roleNames_ne {c : config} (hv : validate c = none) :
    ∀ r ∈ c.roles, r.name ≠ "" := by
  intro r hr
  have hok := validate_none_roleOk hv r hr
  unfold roleOk at hok
  simp only [Bool.and_eq_true, decide_eq_true_eq] at hok
  exact hok.1.1

/-! Action offset facts. -/

theorem getHTTPActionOffset_lt (a : String) : getHTTPActionOffset a < 5 := by
  unfold getHTTPActionOffset
  split_ifs <;> omega

theorem offset_inj_recognized : ∀ x ∈ recognizedActions,
    ∀ y ∈ recognizedActions,
    getHTTPActionOffset x = getHTTPActionOffset y → x = y := by decide

theorem recognized_ne_empty : ∀ x ∈ recognizedActions, x ≠ "" := by decide

theorem getHTTPActionOffset_unrecognized {a : String}
    (h : a ∉ recognizedActions) : getHTTPActionOffset a = 0 := by
  simp only [recognizedActions, List.mem_cons, List.not_mem_nil, or_false,
    not_or] at h
  obtain ⟨h1, h2, h3, h4, h5⟩ := h
  simp [getHTTPActionOffset, h1, h2, h3, h4, h5]

theorem actionsOk_spec {c : config} (h : actionsOk c = true) :
    ∀ r ∈ c.roles, ∀ g ∈ r.resources, ∀ x ∈ g.actions,
      x = "" ∨ x ∈ recognizedActions := by
  simp only [actionsOk, List.all_eq_true, Bool.or_eq_true,
    decide_eq_true_eq] at h
  exact h

theorem coveredB_iff {c : config} {rn sn a : String} :
    coveredB c rn sn a = true ↔
      ∃ r ∈ c.roles, r.name = rn ∧ ∃ g ∈ r.resources,
        (g.name = allResources ∨ g.name = sn) ∧ a ∈ g.actions := by
  simp [coveredB, List.any_eq_true, Bool.and_eq_true, Bool.or_eq_true,
    decide_eq_true_eq]

/-- Bridge: the declarative grant coverage of a query cell equals the
policy-level coverage of the (role, resource, action) triple, provided
every grant action is recognized or empty and the queried action is
recognized. -/
theorem coveredRoles_iff_coveredB {c : config} {m : Rbac} {rn sn a : String}
    {ri si : Nat} (hb : buildFromConfig c = some m) (hok : actionsOk c = true)
    (ha : a ∈ recognizedActions)
    (hr : sIndex m.roleIdxMap rn = some ri)
    (hs : sIndex m.resourceIdxMap sn = some si) :
    coveredRoles m.roleIdxMap m.resourceIdxMap c.roles
        (ri * maxActions + getHTTPActionOffset a) si ↔
      coveredB c rn sn a = true := by
  rw [coveredB_iff]
  constructor
  · rintro ⟨r, hrmem, ri2, hri2, g, hg, a2, ha2, hne2, hieq, hdisj⟩
    have hoff := getHTTPActionOffset_lt a
    have hoff2 := getHTTPActionOffset_lt a2
    have hsplit : ri = ri2 ∧ getHTTPActionOffset a = getHTTPActionOffset a2 := by
      simp only [maxActions] at hieq
      constructor <;> omega
    have hname : r.name = rn := by
      rw [hsplit.1] at hr
      exact sIndex_inj hri2 hr
    have ha2r : a2 ∈ recognizedActions := by
      rcases actionsOk_spec hok r hrmem g hg a2 ha2 with h | h
      · exact absurd h hne2
      · exact h
    have haa : a2 = a := offset_inj_recognized a2 ha2r a ha hsplit.2.symm
    subst haa
    rcases hdisj with ⟨hw, _⟩ | ⟨_, hj⟩
    · exact ⟨r, hrmem, hname, g, hg, Or.inl hw, ha2⟩
    · have hgname : g.name = sn := sIndex_inj hj hs
      exact ⟨r, hrmem, hname, g, hg, Or.inr hgname, ha2⟩
  · rintro ⟨r, hrmem, hname, g, hg, hdisj, hmem⟩
    have hane : a ≠ "" := recognized_ne_empty a ha
    refine ⟨r, hrmem, ri, by rw [hname]; exact hr, g, hg, a, hmem, hane, rfl, ?_⟩
    by_cases hw : g.name = allResources
    · refine Or.inl ⟨hw, ?_⟩
      have := sIndex_lt_length hs
      rwa [resourceIdxMap_length hb] at this
    · rcases hdisj with hw2 | hgs
      · exact absurd hw2 hw
      · exact Or.inr ⟨hw, by rw [hgs]; exact hs⟩

theorem bool_eq_of_iff {x y : Bool} (h : x = true ↔ y = true) : x = y := by
  cases x <;> cases y <;> simp_all

/-! Claim theorems. -/

/-- C1 counterexample: cfgFooAction passes validation and its only grant
carries the unrecognized action FOO, so no grant covers (r, a, GET); yet
check returns true for (r, a, GET), because FOO aliased to the GET offset
at build time. The claim, as stated for every validated policy, is false. -/
theorem C1_counterexample :
    validate cfgFooAction = none ∧
    coveredB cfgFooAction "r" "a" "GET" = false ∧
    (buildFromConfig cfgFooAction).map (fun m => check m "r" "a" "GET") =
      some (true, none) :=
  ⟨by decide, by decide, by decide⟩

/-- C1 (amended): for a policy that passes validation, whose grant actions
are all empty or recognized, and whose build succeeds, check on a policy
role name, a policy resource name and a recognized action returns exactly
whether some grant of that role (wildcard or concrete) covers the
combination, with no error. -/
theorem C1_check_iff_covered {c : config} {m : Rbac} {rn sn a : String}
    (hv : validate c = none) (hok : actionsOk c = true)
    (hb : buildFromConfig c = some m)
    (hrn : rn ∈ c.roles.map role.name) (hsn : sn ∈ c.resources)
    (ha : a ∈ recognizedActions) :
    check m rn sn a = (coveredB c rn sn a, none) := by
  obtain ⟨ri, hri, _⟩ := roleName_lookup hb hrn
  obtain ⟨si, hsi⟩ := resource_lookup hb hsn
  rw [check_of_found hri hsi]
  have hbit :=
    (accessMap_testBit hb (ri * maxActions + getHTTPActionOffset a) si).trans
      (coveredRoles_iff_coveredB hb hok ha hri hsi)
  rw [bool_eq_of_iff hbit]

/-- C1 witness: a concrete validated policy with recognized actions on
which the amended claim evaluates: the granted combination checks true. -/
theorem C1_check_iff_covered_witness :
    validate cfgGetOnly = none ∧ actionsOk cfgGetOnly = true ∧
    (buildFromConfig cfgGetOnly).map (fun m => check m "r" "a" "GET") =
      some (true, none) := by
  refine ⟨by decide, by decide, ?_⟩
  cases hb : buildFromConfig cfgGetOnly with
  | none =>
      have h : (buildFromConfig cfgGetOnly).isSome = true := by decide
      rw [hb] at h
      simp at h
  | some m =>
      have hrn : "r" ∈ cfgGetOnly.roles.map role.name := by decide
      have hsn : "a" ∈ cfgGetOnly.resources := by decide
      have ha : "GET" ∈ recognizedActions := by decide
      have h := C1_check_iff_covered (by decide) (by decide) hb hrn hsn ha
      simp only [Option.map_some']
      rw [h]
      have : coveredB cfgGetOnly "r" "a" "GET" = true := by decide
      rw [this]

/-- C2: a role holding a wildcard grant for a recognized action A checks
true for A against every resource name that resolves to a valid resource
index, with no error. -/
theorem C2_wildcard_grants_all {c : config} {m : Rbac} {r : role}
    {g : resource} {A sn : String} {si : Nat}
    (hv : validate c = none) (hb : buildFromConfig c = some m)
    (hr : r ∈ c.roles) (hg : g ∈ r.resources) (hw : g.name = allResources)
    (hA : A ∈ g.actions) (hrec : A ∈ recognizedActions)
    (hs : sIndex m.resourceIdxMap sn = some si) :
    check m r.name sn A = (true, none) := by
  have hrn : r.name ∈ c.roles.map role.name := List.mem_map_of_mem role.name hr
  obtain ⟨ri, hri, _⟩ := roleName_lookup hb hrn
  rw [check_of_found hri hs]
  have hsi : si < 64 := by
    have h := sIndex_lt_length hs
    rwa [resourceIdxMap_length hb] at h
  have hcov : coveredRoles m.roleIdxMap m.resourceIdxMap c.roles
      (ri * maxActions + getHTTPActionOffset A) si :=
    ⟨r, hr, ri, hri, g, hg, A, hA, recognized_ne_empty A hrec, rfl,
      Or.inl ⟨hw, hsi⟩⟩
  rw [(accessMap_testBit hb _ si).mpr hcov]

/-- C2 witness: the Admin wildcard DELETE grant checks true even against
the resource slot whose name is the empty-string sentinel, a name never
mentioned in the policy resources. -/
theorem C2_wildcard_grants_all_witness :
    validate cfgWildcard = none ∧
    (buildFromConfig cfgWildcard).map (fun m => sIndex m.resourceIdxMap "") =
      some (some 2) ∧
    (buildFromConfig cfgWildcard).map (fun m => check m "Admin" "" "DELETE") =
      some (true, none) := by
  refine ⟨by decide, by decide, ?_⟩
  cases hb : buildFromConfig cfgWildcard with
  | none =>
      have h : (buildFromConfig cfgWildcard).isSome = true := by decide
      rw [hb] at h
      simp at h
  | some m =>
      have hmap : (buildFromConfig cfgWildcard).map
          (fun m => sIndex m.resourceIdxMap "") = some (some 2) := by decide
      rw [hb] at hmap
      simp only [Option.map_some', Option.some.injEq] at hmap
      have hr : adminRole ∈ cfgWildcard.roles := by decide
      have hg : (⟨"*", ["GET", "DELETE"]⟩ : resource) ∈ adminRole.resources := by
        decide
      have hA : "DELETE" ∈ (⟨"*", ["GET", "DELETE"]⟩ : resource).actions := by
        decide
      have hrec : "DELETE" ∈ recognizedActions := by decide
      have h := C2_wildcard_grants_all (by decide) hb hr hg rfl hA hrec hmap
      simp only [Option.map_some']
      exact congrArg some h

/-- C3 counterexample: on the model built from cfgGetOnly, the empty
string is not a policy role name, yet check returns (false, none) with no
unknown-role error, because the empty name matches a sentinel slot. -/
theorem C3_counterexample :
    "" ∉ cfgGetOnly.roles.map role.name ∧
    (buildFromConfig cfgGetOnly).map (fun m => check m "" "a" "GET") =
      some (false, none) :=
  ⟨by decide, by decide⟩

/-- C3 (amended): on a built model, a non-empty role name that is not a
policy role name yields (false, unknown-role error naming it); a policy
role name with a non-empty resource name absent from the policy resources
yields (false, unknown-resource error naming it), so the role lookup
decides first; and any check error comes with the value false. -/
theorem C3_unknown_names {c : config} {m : Rbac}
    (hb : buildFromConfig c = some m) :
    (∀ rn sn a, rn ≠ "" → rn ∉ c.roles.map role.name →
      check m rn sn a = (false, some (.unknownRole rn))) ∧
    (∀ rn sn a, rn ∈ c.roles.map role.name → sn ≠ "" → sn ∉ c.resources →
      check m rn sn a = (false, some (.unknownResource sn))) ∧
    (∀ rn sn a e, (check m rn sn a).2 = some e →
      (check m rn sn a).1 = false) := by
  refine ⟨?_, ?_, ?_⟩
  · intro rn sn a hne hnm
    exact check_of_role_none (unknownRole_lookup hb hne hnm)
  · intro rn sn a hrn hne hnm
    obtain ⟨ri, hri, _⟩ := roleName_lookup hb hrn
    exact check_of_resource_none hri (unknownResource_lookup hb hne hnm)
  · intro rn sn a e h
    unfold check at h ⊢
    cases h1 : sIndex m.roleIdxMap rn with
    | none => simp [h1]
    | some ri =>
        cases h2 : sIndex m.resourceIdxMap sn with
        | none => simp [h1, h2]
        | some si => simp [h1, h2] at h

/-- C3 witness: both error forms evaluated on the model built from
cfgGetOnly. -/
theorem C3_unknown_names_witness :
    (buildFromConfig cfgGetOnly).map (fun m => check m "x" "a" "GET") =
      some (false, some (.unknownRole "x")) ∧
    (buildFromConfig cfgGetOnly).map (fun m => check m "r" "b" "GET") =
      some (false, some (.unknownResource "b")) := by
  cases hb : buildFromConfig cfgGetOnly with
  | none =>
      have h : (buildFromConfig cfgGetOnly).isSome = true := by decide
      rw [hb] at h
      simp at h
  | some m =>
      constructor
      · simp only [Option.map_some']
        exact congrArg some ((C3_unknown_names hb).1 "x" "a" "GET" (by decide)
          (by decide))
      · simp only [Option.map_some']
        exact congrArg some ((C3_unknown_names hb).2.1 "r" "b" "GET"
          (by decide) (by decide) (by decide))

/-- C4 counterexample: FROB is outside the closed action set, yet it
checks true for a role that holds only a GET grant on the resource: an
unrecognized action name can grant access. -/
theorem C4_counterexample :
    "FROB" ∉ recognizedActions ∧
    (buildFromConfig cfgGetOnly).map (fun m => check m "r" "a" "FROB") =
      some (true, none) :=
  ⟨by decide, by decide⟩

/-- C4 (amended): an action string outside the closed set aliases to the
offset of GET, so check behaves on it exactly as on GET. -/
theorem C4_unrecognized_aliases_get (m : Rbac) (rn sn a : String)
    (h : a ∉ recognizedActions) : check m rn sn a = check m rn sn "GET" := by
  unfold check
  rw [getHTTPActionOffset_unrecognized h,
    show getHTTPActionOffset "GET" = 0 from rfl]

/-- C4 witness: the amended claim evaluated at FROB on a concrete model. -/
theorem C4_unrecognized_aliases_get_witness :
    "FROB" ∉ recognizedActions ∧
    check rbacEmpty "r" "a" "FROB" = check rbacEmpty "r" "a" "GET" :=
  ⟨by decide, C4_unrecognized_aliases_get rbacEmpty "r" "a" "FROB" (by decide)⟩

/-- C5: check is total on any built model (it always yields a pair), and
whenever the role scan finds an index, the access-map cell index
roleIdx * maxActions + actionOffset is within the maxRoles * maxActions
array for every action string, recognized or not. -/
theorem C5_check_index_in_bounds {c : config} {m : Rbac}
    (hb : buildFromConfig c = some m) (rn sn a : String) :
    (∃ p : Bool × Option queryError, check m rn sn a = p) ∧
    (∀ ri, sIndex m.roleIdxMap rn = some ri →
      ri * maxActions + getHTTPActionOffset a < maxRoles * maxActions) := by
  refine ⟨⟨check m rn sn a, rfl⟩, ?_⟩
  intro ri hri
  have h1 : ri < maxRoles := by
    have h := sIndex_lt_length hri
    rwa [roleIdxMap_length hb] at h
  have h2 := getHTTPActionOffset_lt a
  simp only [maxRoles, maxActions] at h1 ⊢
  omega

/-- C5 witness: the bound evaluated for the unrecognized action FROB at
the role index the scan finds on a concrete built model. -/
theorem C5_check_index_in_bounds_witness :
    (buildFromConfig cfgGetOnly).map (fun m => sIndex m.roleIdxMap "r") =
      some (some 0) ∧
    0 * maxActions + getHTTPActionOffset "FROB" < maxRoles * maxActions := by
  refine ⟨by decide, ?_⟩
  cases hb : buildFromConfig cfgGetOnly with
  | none =>
      have h : (buildFromConfig cfgGetOnly).isSome = true := by decide
      rw [hb] at h
      simp at h
  | some m =>
      have hmap : (buildFromConfig cfgGetOnly).map
          (fun m => sIndex m.roleIdxMap "r") = some (some 0) := by decide
      rw [hb] at hmap
      simp only [Option.map_some', Option.some.injEq] at hmap
      exact (C5_check_index_in_bounds hb "r" "a" "FROB").2 0 hmap

theorem checkRoles_prefix_defect {resSet : List String} {r : role}
    {post : List role} {e : validationError} :
    ∀ {pre : List role} {k : Nat},
    (∀ p ∈ pre, roleOk resSet p = true) →
    roleDefect resSet (k + pre.length) r = some e →
    checkRoles resSet k (pre ++ r :: post) = some e := by
  intro pre
  induction pre with
  | nil =>
      intro k _ hd
      simp only [List.length_nil, Nat.add_zero] at hd
      rw [List.nil_append]
      simp only [checkRoles]
      rw [hd]
  | cons p pre ih =>
      intro k hpre hd
      rw [List.cons_append]
      simp only [checkRoles]
      have hp : roleDefect resSet k p = none :=
        roleDefect_none_iff.mpr (hpre p (List.mem_cons_self p pre))
      rw [hp]
      show checkRoles resSet (k + 1) (pre ++ r :: post) = some e
      apply ih (fun q hq => hpre q (List.mem_cons_of_mem p hq))
      have heq : k + 1 + pre.length = k + (p :: pre).length := by
        simp only [List.length_cons]
        omega
      rw [heq]
      exact hd

theorem validate_rolesExceeded_checkRoles {c : config} {mx n : Nat}
    (h : validate c = some (.rolesExceeded mx n)) :
    checkRoles (dedupNonEmpty c.resources) 0 c.roles = none := by
  unfold validate at h
  by_cases h1 : c.resources = []
  · rw [if_pos h1] at h; simp at h
  · rw [if_neg h1] at h
    dsimp only at h
    by_cases h2 : (dedupNonEmpty c.resources).length > maxResources
    · rw [if_pos h2] at h; simp at h
    · rw [if_neg h2] at h
      by_cases h3 : c.roles = []
      · rw [if_pos h3] at h; simp at h
      · rw [if_neg h3] at h
        cases hcr : checkRoles (dedupNonEmpty c.resources) 0 c.roles with
        | none => rfl
        | some e =>
            rw [hcr] at h
            dsimp only at h
            rcases checkRoles_some_kinds hcr with ⟨i, rfl⟩ | ⟨s, rfl⟩ |
              ⟨s, t, rfl⟩ <;> simp at h

/-- C6: the validator is fail-fast in source order: an empty resources
list is rejected as NoResources before any role is examined; when the
resources checks pass, the defect reported is that of the first defective
role, at its declaration index; and a roles-exceeded error is only ever
produced after every role has passed its per-role checks. -/
theorem C6_validate_order {c : config} :
    (c.resources = [] → validate c = some .noResources) ∧
    (∀ pre r post e, c.resources ≠ [] →
      (dedupNonEmpty c.resources).length ≤ maxResources →
      c.roles = pre ++ r :: post →
      (∀ p ∈ pre, roleOk (dedupNonEmpty c.resources) p = true) →
      roleDefect (dedupNonEmpty c.resources) pre.length r = some e →
      validate c = some e) ∧
    (∀ mx n, validate c = some (.rolesExceeded mx n) →
      ∀ r ∈ c.roles, roleOk (dedupNonEmpty c.resources) r = true) := by
  refine ⟨?_, ?_, ?_⟩
  · intro h
    unfold validate
    rw [if_pos h]
  · intro pre r post e h1 h2 hsplit hpre hd
    unfold validate
    rw [if_neg h1]
    dsimp only
    rw [if_neg (by omega)]
    have h3 : c.roles ≠ [] := by
      rw [hsplit]
      simp
    rw [if_neg h3, hsplit]
    have hcr : checkRoles (dedupNonEmpty c.resources) 0 (pre ++ r :: post) =
        some e := checkRoles_prefix_defect hpre (by simpa using hd)
    rw [hcr]
  · intro mx n h
    exact checkRoles_none_iff.mp (validate_rolesExceeded_checkRoles h)

/-- C6 witness: the three order properties evaluated on concrete
policies: no resources wins over broken roles, the defect of the second
role is reported at index 1 after a clean first role, and a 21-role
policy rejected as roles-exceeded has every role pass its per-role
checks. -/
theorem C6_validate_order_witness :
    validate cfgNoResources = some .noResources ∧
    validate cfgBadSecondRole = some (.emptyRole 1) ∧
    cfgManyRoles.roles.all (roleOk (dedupNonEmpty cfgManyRoles.resources)) =
      true := by
  refine ⟨(C6_validate_order (c := cfgNoResources)).1 rfl, ?_, ?_⟩
  · exact (C6_validate_order (c := cfgBadSecondRole)).2.1
      [{ name := "r1", resources := [⟨"a", ["GET"]⟩] }]
      { name := "", resources := [⟨"a", ["GET"]⟩] } [] (.emptyRole 1)
      (by decide) (by decide) rfl (by decide) (by decide)
  · have hv : validate cfgManyRoles = some (.rolesExceeded 20 21) := by decide
    have hall := (C6_validate_order (c := cfgManyRoles)).2.2 20 21 hv
    exact List.all_eq_true.mpr fun r hr => hall r hr

/-- C7 counterexample: a resources list consisting only of an empty
string deduplicates-and-filters to the empty set, yet validation accepts
the policy (it only tests the raw list for emptiness). -/
theorem C7_counterexample :
    dedupNonEmpty cfgEmptyResourceOnly.resources = [] ∧
    validate cfgEmptyResourceOnly = none :=
  ⟨by decide, by decide⟩

/-- C7 (amended): validate returns NoResources exactly when the raw
resources list is empty; a non-empty list whose entries are all empty
strings is not rejected as NoResources. -/
theorem C7_noResources_iff {c : config} :
    validate c = some .noResources ↔ c.resources = [] := by
  constructor
  · intro h
    by_contra h1
    unfold validate at h
    rw [if_neg h1] at h
    dsimp only at h
    by_cases h2 : (dedupNonEmpty c.resources).length > maxResources
    · rw [if_pos h2] at h; simp at h
    · rw [if_neg h2] at h
      by_cases h3 : c.roles = []
      · rw [if_pos h3] at h; simp at h
      · rw [if_neg h3] at h
        cases hcr : checkRoles (dedupNonEmpty c.resources) 0 c.roles with
        | some e =>
            rw [hcr] at h
            dsimp only at h
            rcases checkRoles_some_kinds hcr with ⟨i, rfl⟩ | ⟨s, rfl⟩ |
              ⟨s, t, rfl⟩ <;> simp at h
        | none =>
            rw [hcr] at h
            dsimp only at h
            by_cases h4 : c.roles.length > maxRoles
            · rw [if_pos h4] at h; simp at h
            · rw [if_neg h4] at h; simp at h
  · intro h
    unfold validate
    rw [if_pos h]

/-- C7 witness: both directions of the amended claim at concrete
policies. -/
theorem C7_noResources_iff_witness :
    validate cfgNoResources = some .noResources ∧
    validate cfgEmptyResourceOnly ≠ some .noResources := by
  constructor
  · exact (C7_noResources_iff (c := cfgNoResources)).mpr rfl
  · intro h
    exact absurd ((C7_noResources_iff (c := cfgEmptyResourceOnly)).mp h)
      (by decide)

/-- C8 counterexample: with resources ["b", "a", ""] the build gives the
empty string slot 0 and the name a slot 1, not slot 0: empty-string
entries do receive an index slot and shift the non-empty names. -/
theorem C8_counterexample :
    validate cfgEmptyAmongResources = none ∧
    (buildFromConfig cfgEmptyAmongResources).map
      (fun m => sIndex m.resourceIdxMap "a") = some (some 1) ∧
    (buildFromConfig cfgEmptyAmongResources).map
      (fun m => sIndex m.resourceIdxMap "") = some (some 0) :=
  ⟨by decide, by decide, by decide⟩

/-- C8 (amended): the resource index maps the deduplicated entries of
policy.resources including any empty string, sorted ascending: the index
of an entry is the number of distinct entries lexicographically below
it. -/
theorem C8_resource_rank {c : config} {m : Rbac} {s : String}
    (hb : buildFromConfig c = some m) (hs : s ∈ c.resources) :
    sIndex m.resourceIdxMap s =
      some (c.resources.dedup.countP (fun t => strLt t s)) := by
  obtain ⟨_, hsl, _, _, _⟩ := buildFromConfig_inv hb
  have hmem : s ∈ sortedStrings c.resources.dedup :=
    mem_sortedStrings.mpr (List.mem_dedup.mpr hs)
  rw [hsl, padTo, sIndex_append_of_mem hmem,
    sIndex_sorted_rank (sortedStrings_sorted _) hmem]
  congr 1
  exact (sortedStrings_perm _).countP_eq _

/-- C8 witness: the rank formula evaluated on cfgEmptyAmongResources at
the name a, whose rank among the distinct entries (including the empty
string) is 1. -/
theorem C8_resource_rank_witness :
    (buildFromConfig cfgEmptyAmongResources).map
        (fun m => sIndex m.resourceIdxMap "a") =
      some (some (cfgEmptyAmongResources.resources.dedup.countP
        (fun t => strLt t "a"))) ∧
    cfgEmptyAmongResources.resources.dedup.countP (fun t => strLt t "a") =
      1 := by
  refine ⟨?_, by decide⟩
  cases hb : buildFromConfig cfgEmptyAmongResources with
  | none =>
      have h : (buildFromConfig cfgEmptyAmongResources).isSome = true := by
        decide
      rw [hb] at h
      simp at h
  | some m =>
      simp only [Option.map_some']
      exact congrArg some (C8_resource_rank hb (by decide))

/-- C9: the code mutates the policy it was given. buildFromConfig calls
slices.DeleteFunc on each grant action slice; for the grant actions
["", "GET"] the callers slice afterwards reads ["GET", ""], not its
original value, contradicting the stated immutability of the policy. -/
theorem C9_build_mutates_actions :
    actionsAfterBuild ["", "GET"] = ["GET", ""] ∧
    actionsAfterBuild ["", "GET"] ≠ ["", "GET"] :=
  ⟨by decide, by decide⟩

/-- C10: on a model built from a validated policy with fewer than
maxRoles roles, the empty role name matches the first sentinel slot of
the role index array; its matrix row was never written, so check returns
(false, none) for every resolvable resource name and every action string,
with no unknown-role error. -/
theorem C10_empty_role_no_error {c : config} {m : Rbac}
    (hv : validate c = none) (hb : buildFromConfig c = some m)
    (hlt : c.roles.length < maxRoles) (sn a : String) {si : Nat}
    (hs : sIndex m.resourceIdxMap sn = some si) :
    check m "" sn a = (false, none) := by
  obtain ⟨hrl, _, _, _, _⟩ := buildFromConfig_inv hb
  have hnames : "" ∉ sortedStrings (c.roles.map role.name) := by
    intro hmem
    rcases List.mem_map.mp (mem_sortedStrings.mp hmem) with ⟨r, hr, hname⟩
    exact validate_none_roleNames_ne hv r hr hname
  have hlen : (sortedStrings (c.roles.map role.name)).length =
      c.roles.length := by
    rw [sortedStrings_length, List.length_map]
  have hrepl : 0 < maxRoles - (sortedStrings (c.roles.map role.name)).length := by
    rw [hlen]
    omega
  have hidx : sIndex m.roleIdxMap "" = some c.roles.length := by
    rw [hrl, padTo, sIndex_append_of_not_mem hnames,
      sIndex_replicate_empty hrepl]
    simp [hlen]
  rw [check_of_found hidx hs]
  have hcov : ¬ coveredRoles m.roleIdxMap m.resourceIdxMap c.roles
      (c.roles.length * maxActions + getHTTPActionOffset a) si := by
    rintro ⟨r, hr, ri, hri, g, hg, a2, ha2, hne2, hieq, _⟩
    have hmemr : r.name ∈ sortedStrings (c.roles.map role.name) :=
      mem_sortedStrings.mpr (List.mem_map_of_mem role.name hr)
    have hri2 : sIndex (sortedStrings (c.roles.map role.name)) r.name =
        some ri := by
      rw [hrl, padTo, sIndex_append_of_mem hmemr] at hri
      exact hri
    have hlt2 : ri < c.roles.length := by
      have h := sIndex_lt_length hri2
      rwa [hlen] at h
    have h5 := getHTTPActionOffset_lt a
    have h52 := getHTTPActionOffset_lt a2
    simp only [maxActions] at hieq
    omega
  have hbitF : (m.accessMap
      (c.roles.length * maxActions + getHTTPActionOffset a)).testBit si =
      false := by
    by_contra hbit
    rw [Bool.not_eq_false] at hbit
    exact hcov ((accessMap_testBit hb _ si).mp hbit)
  rw [hbitF]

/-- C10 witness: the empty role name checked on the model built from
cfgGetOnly answers (false, none). -/
theorem C10_empty_role_no_error_witness :
    validate cfgGetOnly = none ∧ cfgGetOnly.roles.length < maxRoles ∧
    (buildFromConfig cfgGetOnly).map (fun m => check m "" "a" "POST") =
      some (false, none) := by
  refine ⟨by decide, by decide, ?_⟩
  cases hb : buildFromConfig cfgGetOnly with
  | none =>
      have h : (buildFromConfig cfgGetOnly).isSome = true := by decide
      rw [hb] at h
      simp at h
  | some m =>
      have hmap : (buildFromConfig cfgGetOnly).map
          (fun m => sIndex m.resourceIdxMap "a") = some (some 0) := by decide
      rw [hb] at hmap
      simp only [Option.map_some', Option.some.injEq] at hmap
      simp only [Option.map_some']
      exact congrArg some
        (C10_empty_role_no_error (by decide) hb (by decide) "a" "POST" hmap)
